import Mathlib

/- Shallow embedding of src/server/server.js, the Socket.io chat server.

   The server keeps four module-level state stores (server.js lines 30-33):
   users (socket.id to username/id/rooms records), messages (bounded log of
   capacity 100), typingUsers (socket.id to username), and rooms (room name
   to member set, pre-seeded with the global room).

   JS objects keyed by strings are modelled as association lists that
   preserve insertion order (as JS string-keyed objects do); JS Sets are
   modelled as duplicate-free lists preserving insertion order.  The set of
   currently connected sockets (maintained by socket.io itself and reached
   by io.emit) is modelled as an extra field conns.  Socket.io room
   membership (socket.join / socket.leave) is updated by the handlers in
   lockstep with the rooms store, so delivery through io.to(room) is
   modelled by the members list of the rooms store. -/

set_option autoImplicit false

namespace ChatServer

abbrev ConnId := String
abbrev RoomName := String

/-- Value stored in the users object: `{ username, id: socket.id, rooms: Set }`
(the id field duplicates the association key and is kept implicit). -/
structure User where
  username : String
  rooms : List RoomName
deriving DecidableEq

/-- Entry of the messages array built in the send_message handler
(server.js lines 51-60).  The id field is Date.now() at creation; the
timestamp string derived from the same clock carries no extra information
and is omitted. -/
structure Message where
  id : Nat
  sender : String
  senderId : ConnId
  body : String
  room : RoomName
  deliveredTo : List ConnId
  readBy : List ConnId
deriving DecidableEq

structure ServerState where
  users : List (ConnId × User)
  messages : List Message
  typingUsers : List (ConnId × String)
  rooms : List (RoomName × List ConnId)
  conns : List ConnId
deriving DecidableEq

/-- Module initialisation (server.js lines 30-33): empty stores except the
pre-created global room. -/
def initialState : ServerState :=
  { users := [], messages := [], typingUsers := [],
    rooms := [("global", [])], conns := [] }

section AListOps

variable {α : Type} {β : Type} [DecidableEq α]

/-- Lookup in a JS object: obj[k]. -/
def alistGet : List (α × β) → α → Option β
  | [], _ => none
  | (k, v) :: rest, c => if c = k then some v else alistGet rest c

/-- Assignment in a JS object: obj[k] = v (overwrites in place, appends a
new key at the end). -/
def alistSet : List (α × β) → α → β → List (α × β)
  | [], k, v => [(k, v)]
  | (k', v') :: rest, k, v =>
    if k = k' then (k, v) :: rest else (k', v') :: alistSet rest k v

/-- In-place mutation of the value stored under an existing key, such as
rooms[r].members.add(c); a no-op when the key is absent (never reached on
an absent key by the embedded handlers). -/
def alistUpdate : List (α × β) → α → (β → β) → List (α × β)
  | [], _, _ => []
  | (k', v) :: rest, k, f =>
    if k = k' then (k', f v) :: rest else (k', v) :: alistUpdate rest k f

/-- JS delete obj[k]: drops every entry stored under the key. -/
def alistDel : List (α × β) → α → List (α × β)
  | [], _ => []
  | (k', v) :: rest, k =>
    if k' = k then alistDel rest k else (k', v) :: alistDel rest k

/-- JS Set.add: appends when absent. -/
def listAdd (l : List α) (a : α) : List α :=
  if a ∈ l then l else l ++ [a]

/-- JS Set.delete. -/
def listDel : List α → α → List α
  | [], _ => []
  | x :: rest, a => if x = a then listDel rest a else x :: listDel rest a

end AListOps

/-- Outbound events pushed by the handlers.  io.emit reaches every
connected socket; io.to(target) reaches the listed recipients. -/
inductive Emit where
  | userList (us : List User)
  | userJoined (username : String) (cid : ConnId)
  | userLeft (username : String) (cid : ConnId)
  | receiveMessage (recipients : List ConnId) (m : Message)
  | ack (toConn : ConnId) (messageId : Nat)
  | typingList (usernames : List String)
  | roomNotification (recipients : List ConnId) (room : RoomName) (text : String)
  | messageReadNotice (toConn : ConnId) (messageId : Nat) (readerId : ConnId)
      (reader : Option String)
deriving DecidableEq

/-- Socket connects (io.on connection, server.js line 36): socket.io adds
it to the connected set; no store is touched. -/
def handleConnect (s : ServerState) (cid : ConnId) : ServerState × List Emit :=
  ({ s with conns := listAdd s.conns cid }, [])

/-- user_join handler (server.js lines 40-47): unconditionally overwrites
users[socket.id], joins the global room, and broadcasts the user list and
a user_joined event. -/
def handleUserJoin (s : ServerState) (cid : ConnId) (username : String) :
    ServerState × List Emit :=
  let users2 := alistSet s.users cid { username := username, rooms := ["global"] }
  let rooms2 := alistUpdate s.rooms "global" (fun mem => listAdd mem cid)
  ({ s with users := users2, rooms := rooms2 },
   [Emit.userList (users2.map Prod.snd), Emit.userJoined username cid])

/-- Sender field of a new message (server.js line 54): the registered
username, or the Anonymous fallback when the connection is unregistered or
its username is the empty string (falsy in JS). -/
def senderName (s : ServerState) (cid : ConnId) : String :=
  match alistGet s.users cid with
  | some u => if u.username = "" then "Anonymous" else u.username
  | none => "Anonymous"

/-- Room field of a new message (server.js line 57): a missing or empty
(falsy) room field defaults to the global room. -/
def effectiveRoom (roomField : Option String) : RoomName :=
  match roomField with
  | some r => if r = "" then "global" else r
  | none => "global"

/-- The message object built at server.js lines 51-60, with now standing
for Date.now(). -/
def mkMessage (s : ServerState) (cid : ConnId) (now : Nat) (body : String)
    (roomField : Option String) : Message :=
  { id := now, sender := senderName s cid, senderId := cid, body := body,
    room := effectiveRoom roomField, deliveredTo := [], readBy := [] }

/-- send_message handler (server.js lines 50-85): build the message, push
it, shift when the log exceeds 100, ack the sender when an ack callback was
supplied, then deliver.  message.room is always a nonempty string here, so
the JS truthiness test message.room && rooms[message.room] reduces to the
directory lookup: deliver to the room members when the room exists in the
directory, otherwise io.emit to every connection. -/
def handleSendMessage (s : ServerState) (cid : ConnId) (now : Nat) (body : String)
    (roomField : Option String) (hasAck : Bool) : ServerState × List Emit :=
  let message := mkMessage s cid now body roomField
  let msgs := s.messages ++ [message]
  let msgs2 := if msgs.length > 100 then msgs.tail else msgs
  let ackEmits := if hasAck then [Emit.ack cid message.id] else []
  let deliveries :=
    match alistGet s.rooms message.room with
    | some mem => [Emit.receiveMessage mem message]
    | none => [Emit.receiveMessage s.conns message]
  ({ s with messages := msgs2 }, ackEmits ++ deliveries)

/-- typing handler (server.js lines 88-100): guarded by the connection
being registered; otherwise nothing happens. -/
def handleTyping (s : ServerState) (cid : ConnId) (isTyping : Bool) :
    ServerState × List Emit :=
  match alistGet s.users cid with
  | none => (s, [])
  | some u =>
    let t2 :=
      if isTyping then alistSet s.typingUsers cid u.username
      else alistDel s.typingUsers cid
    ({ s with typingUsers := t2 }, [Emit.typingList (t2.map Prod.snd)])

/-- Display name used in room notifications (server.js lines 113 and 126):
the registered username, or the User fallback when unregistered or when
the username is the empty string. -/
def displayName (s : ServerState) (cid : ConnId) : String :=
  match alistGet s.users cid with
  | some u => if u.username = "" then "User" else u.username
  | none => "User"

/-- join_room handler (server.js lines 103-116): a falsy (empty) room name
returns immediately; otherwise the room is created when absent, the socket
is added to its members, the registered user's cached room set gains the
name (users[socket.id]?.rooms?.add silently no-ops when unregistered), and
a room notification goes to the room, joiner included. -/
def handleJoinRoom (s : ServerState) (cid : ConnId) (roomName : RoomName) :
    ServerState × List Emit :=
  if roomName = "" then (s, [])
  else
    let rooms1 :=
      match alistGet s.rooms roomName with
      | some _ => s.rooms
      | none => s.rooms ++ [(roomName, [])]
    let rooms2 := alistUpdate rooms1 roomName (fun mem => listAdd mem cid)
    let users2 :=
      match alistGet s.users cid with
      | some u => alistSet s.users cid { u with rooms := listAdd u.rooms roomName }
      | none => s.users
    let recips := (alistGet rooms2 roomName).getD []
    ({ s with rooms := rooms2, users := users2 },
     [Emit.roomNotification recips roomName
        (displayName s cid ++ " joined " ++ roomName)])

/-- leave_room handler (server.js lines 119-129): returns when the name is
falsy or the room unknown; otherwise removes the socket from the members
and from the registered user's cached set, then notifies the remaining
room members (the leaver already left the socket.io room). -/
def handleLeaveRoom (s : ServerState) (cid : ConnId) (roomName : RoomName) :
    ServerState × List Emit :=
  if roomName = "" then (s, [])
  else
    match alistGet s.rooms roomName with
    | none => (s, [])
    | some _ =>
      let rooms2 := alistUpdate s.rooms roomName (fun mem => listDel mem cid)
      let users2 :=
        match alistGet s.users cid with
        | some u => alistSet s.users cid { u with rooms := listDel u.rooms roomName }
        | none => s.users
      let recips := (alistGet rooms2 roomName).getD []
      ({ s with rooms := rooms2, users := users2 },
       [Emit.roomNotification recips roomName
          (displayName s cid ++ " left " ++ roomName)])

/-- In-place mutation of the first entry carrying the given id, adding the
reader to its readBy set (server.js line 153). -/
def markReadFirst (msgs : List Message) (messageId : Nat) (cid : ConnId) :
    List Message :=
  match msgs with
  | [] => []
  | m :: rest =>
    if m.id = messageId then { m with readBy := listAdd m.readBy cid } :: rest
    else m :: markReadFirst rest messageId cid

/-- message_read handler (server.js lines 150-159): when no retained
message carries the id, return with no state change and no emission;
otherwise record the reader and notify the original sender's socket. -/
def handleMessageRead (s : ServerState) (cid : ConnId) (messageId : Nat) :
    ServerState × List Emit :=
  match s.messages.find? (fun m => m.id == messageId) with
  | none => (s, [])
  | some msg =>
    ({ s with messages := markReadFirst s.messages messageId cid },
     [Emit.messageReadNotice msg.senderId messageId cid
        ((alistGet s.users cid).map User.username)])

/-- disconnect handler (server.js lines 162-177): emit user_left only when
the connection was registered; remove the socket from every room's
members, clear and delete its user entry and typing entry, then broadcast
the updated user list and typing list. -/
def handleDisconnect (s : ServerState) (cid : ConnId) : ServerState × List Emit :=
  let leftEmits :=
    match alistGet s.users cid with
    | some u => [Emit.userLeft u.username cid]
    | none => []
  let rooms2 := s.rooms.map (fun p => (p.1, listDel p.2 cid))
  let users2 := alistDel s.users cid
  let typing2 := alistDel s.typingUsers cid
  ({ s with rooms := rooms2, users := users2, typingUsers := typing2,
            conns := listDel s.conns cid },
   leftEmits ++ [Emit.userList (users2.map Prod.snd),
                 Emit.typingList (typing2.map Prod.snd)])

/-- Inbound events of the embedded handlers.  The private_message handler
touches no state store and is settled by no claim, so it is not modelled. -/
inductive Event where
  | connect (cid : ConnId)
  | userJoin (cid : ConnId) (username : String)
  | sendMessage (cid : ConnId) (now : Nat) (body : String)
      (roomField : Option String) (hasAck : Bool)
  | typing (cid : ConnId) (isTyping : Bool)
  | joinRoom (cid : ConnId) (roomName : RoomName)
  | leaveRoom (cid : ConnId) (roomName : RoomName)
  | messageRead (cid : ConnId) (messageId : Nat)
  | disconnect (cid : ConnId)
deriving DecidableEq

def step (s : ServerState) (e : Event) : ServerState × List Emit :=
  match e with
  | .connect cid => handleConnect s cid
  | .userJoin cid username => handleUserJoin s cid username
  | .sendMessage cid now body roomField hasAck =>
      handleSendMessage s cid now body roomField hasAck
  | .typing cid isTyping => handleTyping s cid isTyping
  | .joinRoom cid roomName => handleJoinRoom s cid roomName
  | .leaveRoom cid roomName => handleLeaveRoom s cid roomName
  | .messageRead cid messageId => handleMessageRead s cid messageId
  | .disconnect cid => handleDisconnect s cid

def stepState (s : ServerState) (e : Event) : ServerState :=
  (step s e).1

def run (es : List Event) : ServerState :=
  es.foldl stepState initialState

/-- Recogniser for receive_message emissions. -/
def isDelivery : Emit → Bool
  | .receiveMessage _ _ => true
  | _ => false

/-- The connection sits in the members set of the room in the directory. -/
def memberOf (s : ServerState) (cid : ConnId) (r : RoomName) : Prop :=
  ∃ mem, alistGet s.rooms r = some mem ∧ cid ∈ mem

/-- The room name sits in the cached joinedRooms set of the connection's
Connection Registry entry. -/
def inJoinedRooms (s : ServerState) (cid : ConnId) (r : RoomName) : Prop :=
  ∃ u, alistGet s.users cid = some u ∧ r ∈ u.rooms

/-- Invariant of spec section 3: a connection appears in Room.members iff
that room's name appears in that connection's joinedRooms. -/
def roomInvariant (s : ServerState) : Prop :=
  ∀ cid r, memberOf s cid r ↔ inJoinedRooms s cid r

/-- The pre-created global room is present in the directory. -/
def globalRoomExists (s : ServerState) : Prop :=
  ∃ mem, alistGet s.rooms "global" = some mem

/-- Well-formed inbound event relative to the current state: user_join
arrives only from a not-yet-registered connection and join_room only from
a registered one.  All other events are unrestricted. -/
def wellFormedEvent (s : ServerState) : Event → Bool
  | .userJoin cid _ => (alistGet s.users cid).isNone
  | .joinRoom cid _ => (alistGet s.users cid).isSome
  | _ => true

/-- Every event of the trace is well-formed in the state it arrives in. -/
def wfTrace : ServerState → List Event → Bool
  | _, [] => true
  | s, e :: es => wellFormedEvent s e && wfTrace (stepState s e) es

/-- A state whose message log is exactly at capacity, used to exercise the
eviction branch on a concrete input. -/
def logFull : ServerState :=
  { initialState with
    messages := (List.range 100).map (fun i =>
      { id := i, sender := "x", senderId := "a", body := "m", room := "global",
        deliveredTo := [], readBy := [] }) }

section AListLemmas

variable {α : Type} {β : Type} [DecidableEq α]

theorem alistGet_set (l : List (α × β)) (k c : α) (v : β) :
    alistGet (alistSet l k v) c = if c = k then some v else alistGet l c := by
  induction l with
  | nil => simp [alistSet, alistGet]
  | cons p rest ih =>
    obtain ⟨k', v'⟩ := p
    by_cases h1 : k = k'
    · subst h1
      by_cases h2 : c = k <;> simp [alistSet, alistGet, h2]
    · by_cases h2 : c = k'
      · subst h2
        have hck : ¬ c = k := fun h => h1 h.symm
        simp [alistSet, alistGet, h1, hck]
      · simp [alistSet, alistGet, h1, h2, ih]

theorem alistGet_update (l : List (α × β)) (k c : α) (f : β → β) :
    alistGet (alistUpdate l k f) c =
      if c = k then (alistGet l k).map f else alistGet l c := by
  induction l with
  | nil => simp [alistUpdate, alistGet]
  | cons p rest ih =>
    obtain ⟨k', v'⟩ := p
    by_cases h1 : k = k'
    · subst h1
      by_cases h2 : c = k <;> simp [alistUpdate, alistGet, h2]
    · by_cases h2 : c = k'
      · subst h2
        have hck : ¬ c = k := fun h => h1 h.symm
        simp [alistUpdate, alistGet, h1, hck]
      · simp [alistUpdate, alistGet, h1, h2, ih]

theorem alistGet_del (l : List (α × β)) (k c : α) :
    alistGet (alistDel l k) c = if c = k then none else alistGet l c := by
  induction l with
  | nil => simp [alistDel, alistGet]
  | cons p rest ih =>
    obtain ⟨k', v'⟩ := p
    by_cases h1 : k' = k
    · subst h1
      by_cases h2 : c = k'
      · subst h2
        simpa [alistDel] using ih
      · simp [alistDel, alistGet, h2, ih]
    · by_cases h2 : c = k'
      · subst h2
        simp [alistDel, alistGet, h1]
      · simp [alistDel, alistGet, h1, h2, ih]

theorem alistGet_append (l m : List (α × β)) (c : α) :
    alistGet (l ++ m) c = (alistGet l c).or (alistGet m c) := by
  induction l with
  | nil => simp [alistGet]
  | cons p rest ih =>
    obtain ⟨k', v'⟩ := p
    by_cases h : c = k' <;> simp [alistGet, h, ih]

theorem alistGet_mapDel [DecidableEq β] (l : List (α × List β)) (b : β) (c : α) :
    alistGet (l.map (fun p => (p.1, listDel p.2 b))) c
      = (alistGet l c).map (fun mem => listDel mem b) := by
  induction l with
  | nil => simp [alistGet]
  | cons p rest ih =>
    obtain ⟨k', v'⟩ := p
    by_cases h : c = k' <;> simp [alistGet, h, ih]

theorem mem_listAdd (l : List α) (a b : α) :
    b ∈ listAdd l a ↔ b ∈ l ∨ b = a := by
  unfold listAdd
  by_cases h : a ∈ l
  · simp only [if_pos h]
    constructor
    · exact Or.inl
    · rintro (hb | rfl)
      · exact hb
      · exact h
  · simp [if_neg h]

theorem mem_listDel (l : List α) (a b : α) :
    b ∈ listDel l a ↔ b ∈ l ∧ b ≠ a := by
  induction l with
  | nil => simp [listDel]
  | cons x rest ih =>
    by_cases h : x = a
    · have hstep : listDel (x :: rest) a = listDel rest a := by simp [listDel, h]
      rw [hstep, ih, List.mem_cons]
      constructor
      · rintro ⟨hb, hba⟩
        exact ⟨Or.inr hb, hba⟩
      · rintro ⟨hb | hb, hba⟩
        · exact absurd (hb.trans h) hba
        · exact ⟨hb, hba⟩
    · have hstep : listDel (x :: rest) a = x :: listDel rest a := by simp [listDel, h]
      rw [hstep, List.mem_cons, List.mem_cons, ih]
      constructor
      · rintro (rfl | ⟨hb, hba⟩)
        · exact ⟨Or.inl rfl, h⟩
        · exact ⟨Or.inr hb, hba⟩
      · rintro ⟨hb | hb, hba⟩
        · exact Or.inl hb
        · exact Or.inr ⟨hb, hba⟩

theorem listDel_eq_self (l : List α) (a : α) (h : a ∉ l) :
    listDel l a = l := by
  induction l with
  | nil => rfl
  | cons x rest ih =>
    have hx : x ≠ a := fun he => h (he ▸ List.mem_cons_self x rest)
    have hr : a ∉ rest := fun hm => h (List.mem_cons_of_mem _ hm)
    simp [listDel, hx, ih hr]

theorem not_mem_listDel_self (l : List α) (a : α) : a ∉ listDel l a :=
  fun h => ((mem_listDel l a a).mp h).2 rfl

theorem listDel_idem (l : List α) (a : α) :
    listDel (listDel l a) a = listDel l a :=
  listDel_eq_self _ _ (not_mem_listDel_self l a)

theorem alistGet_eq_none_iff (l : List (α × β)) (k : α) :
    alistGet l k = none ↔ ∀ p ∈ l, p.1 ≠ k := by
  induction l with
  | nil => simp [alistGet]
  | cons p rest ih =>
    obtain ⟨k', v'⟩ := p
    by_cases h : k = k'
    · subst h
      constructor
      · intro hc
        simp [alistGet] at hc
      · intro hall
        exact absurd rfl (hall (k, v') (List.mem_cons_self _ _))
    · constructor
      · intro hc p hp
        rcases List.mem_cons.mp hp with rfl | hp'
        · exact fun he => h he.symm
        · have hrest : alistGet rest k = none := by simpa [alistGet, h] using hc
          exact ih.mp hrest p hp'
      · intro hall
        have hrest : alistGet rest k = none :=
          ih.mpr (fun p hp => hall p (List.mem_cons_of_mem _ hp))
        simpa [alistGet, h] using hrest

theorem alistDel_eq_self (l : List (α × β)) (k : α)
    (h : alistGet l k = none) : alistDel l k = l := by
  induction l with
  | nil => rfl
  | cons p rest ih =>
    obtain ⟨k', v'⟩ := p
    have hall := (alistGet_eq_none_iff _ k).mp h
    have hk : k' ≠ k := hall (k', v') (List.mem_cons_self _ _)
    have hrest : alistGet rest k = none :=
      (alistGet_eq_none_iff _ k).mpr
        (fun p hp => hall p (List.mem_cons_of_mem _ hp))
    simp [alistDel, hk, ih hrest]

end AListLemmas

theorem markReadFirst_length (msgs : List Message) (messageId : Nat) (cid : ConnId) :
    (markReadFirst msgs messageId cid).length = msgs.length := by
  induction msgs with
  | nil => rfl
  | cons m rest ih =>
    by_cases h : m.id = messageId <;> simp [markReadFirst, h, ih]

/-- C1: the claim says message ids are strictly increasing across the
process lifetime regardless of how close together the appends occur.  The
handler assigns id := Date.now() (millisecond resolution), so two
send_message events arriving in the same millisecond receive the same id:
after two sends with the clock at 1000, the log carries ids 1000 and 1000,
and 1000 < 1000 fails. -/
theorem C1_message_id_collision :
    (run [Event.connect "a", Event.connect "b",
          Event.sendMessage "a" 1000 "hi" none false,
          Event.sendMessage "b" 1000 "yo" none false]).messages.map Message.id
        = [1000, 1000] ∧ ¬ (1000 < 1000) := by
  decide

/-- C3 counterexample: the claim asserts the membership invariant at every
observable point for every connection.  A join_room from a connection that
never registered (users[socket.id]?.rooms?.add is a silent no-op) puts the
connection into the room's member set while the Connection Registry holds
no entry for it, so the iff fails at connection a and room dev. -/
theorem C3_invariant_counterexample :
    ¬ roomInvariant (run [Event.connect "a", Event.joinRoom "a" "dev"]) := by
  intro h
  have hmem : memberOf (run [Event.connect "a", Event.joinRoom "a" "dev"]) "a" "dev" :=
    ⟨["a"], by decide, by decide⟩
  rcases (h "a" "dev").mp hmem with ⟨u, hu, _⟩
  have hnone : alistGet (run [Event.connect "a", Event.joinRoom "a" "dev"]).users "a"
      = (none : Option User) := by decide
  rw [hnone] at hu
  exact Option.noConfusion hu

/-- C4 counterexample: after a registered user (in rooms global and dev)
sends a second user_join, the registration is overwritten — the cached
room set is reset to just global while the dev membership persists — and
the handler broadcasts (emissions nonempty), contradicting the claim that
the duplicate join is surfaced only as an AlreadyRegistered error with no
overwrite and no broadcast. -/
theorem C4_duplicate_join_counterexample :
    alistGet (run [Event.connect "a", Event.userJoin "a" "alice",
        Event.joinRoom "a" "dev"]).users "a"
      = some { username := "alice", rooms := ["global", "dev"] } ∧
    alistGet (stepState (run [Event.connect "a", Event.userJoin "a" "alice",
        Event.joinRoom "a" "dev"]) (Event.userJoin "a" "alice")).users "a"
      = some { username := "alice", rooms := ["global"] } ∧
    alistGet (stepState (run [Event.connect "a", Event.userJoin "a" "alice",
        Event.joinRoom "a" "dev"]) (Event.userJoin "a" "alice")).rooms "dev"
      = some ["a"] ∧
    (step (run [Event.connect "a", Event.userJoin "a" "alice",
        Event.joinRoom "a" "dev"]) (Event.userJoin "a" "alice")).2 ≠ [] := by
  decide

/-- C5 counterexample: with connections a (registered, in global) and b
(connected, in no room), b sends with room field equal to the empty
string.  The empty string is absent from the Room Directory, so the claim
requires a broadcast to all connections, but the handler defaults the
falsy room field to global and delivers to the global members only: the
receive_message emission reaches exactly a, not the full connection list
a, b. -/
theorem C5_empty_room_counterexample :
    alistGet (run [Event.connect "a", Event.userJoin "a" "alice",
        Event.connect "b"]).rooms "" = none ∧
    (run [Event.connect "a", Event.userJoin "a" "alice",
        Event.connect "b"]).conns = ["a", "b"] ∧
    (step (run [Event.connect "a", Event.userJoin "a" "alice", Event.connect "b"])
        (Event.sendMessage "b" 7 "hi" (some "") false)).2
      = [Emit.receiveMessage ["a"]
          (mkMessage (run [Event.connect "a", Event.userJoin "a" "alice",
              Event.connect "b"]) "b" 7 "hi" (some ""))] := by
  decide

/-- C7 counterexample: the claim says a whitespace-only room name fails
with InvalidRoomName, creating no room and emitting nothing.  The handler
only rejects a falsy (empty) name, so joining the room named by a single
space creates it, records the membership, and emits a room notification. -/
theorem C7_whitespace_room_counterexample :
    alistGet (stepState (run [Event.connect "a", Event.userJoin "a" "alice"])
        (Event.joinRoom "a" " ")).rooms " " = some ["a"] ∧
    (step (run [Event.connect "a", Event.userJoin "a" "alice"])
        (Event.joinRoom "a" " ")).2 ≠ [] := by
  decide

/-- C6: a message_read event whose messageId matches no retained message
is a complete no-op: the state is returned unchanged and no outbound event
is emitted. -/
theorem C6_unknown_message_read_noop (s : ServerState) (cid : ConnId) (mid : Nat)
    (h : ∀ m ∈ s.messages, m.id ≠ mid) :
    step s (Event.messageRead cid mid) = (s, []) := by
  have hfind : s.messages.find? (fun m => m.id == mid) = none := by
    apply List.find?_eq_none.mpr
    intro m hm
    simpa using h m hm
  simp [step, handleMessageRead, hfind]

/-- C6 witness: on the initial state (empty log) reading message 5 leaves
the state untouched and emits nothing. -/
theorem C6_unknown_message_read_noop_witness :
    step initialState (Event.messageRead "a" 5) = (initialState, []) :=
  C6_unknown_message_read_noop initialState "a" 5
    (by intro m hm; simp [initialState] at hm)

/-- C9: a typing event from a connection with no Connection Registry entry
is ignored, not errored: the state (in particular the Typing Tracker) is
unchanged and no typing_users broadcast is emitted. -/
theorem C9_unregistered_typing_ignored (s : ServerState) (cid : ConnId)
    (isTyping : Bool) (h : alistGet s.users cid = none) :
    step s (Event.typing cid isTyping) = (s, []) := by
  simp [step, handleTyping, h]

/-- C9 witness: a connected but unregistered socket sends typing true and
nothing happens. -/
theorem C9_unregistered_typing_ignored_witness :
    step (run [Event.connect "a"]) (Event.typing "a" true)
      = (run [Event.connect "a"], []) :=
  C9_unregistered_typing_ignored (run [Event.connect "a"]) "a" true (by decide)

/-- C5 (amended): the room field is defaulted first — a missing or empty
field targets global.  A send whose effective room name is in the Room
Directory is delivered (one receive_message emission) to exactly that
room's member list; when the effective name is absent the single delivery
goes to the full connection list, connections in no room included. -/
theorem C5_message_routing (s : ServerState) (cid : ConnId) (now : Nat)
    (body : String) (roomField : Option String) (hasAck : Bool) :
    ((step s (Event.sendMessage cid now body roomField hasAck)).2).filter isDelivery
      = [Emit.receiveMessage
          (match alistGet s.rooms (effectiveRoom roomField) with
           | some mem => mem
           | none => s.conns)
          (mkMessage s cid now body roomField)] := by
  cases hget : alistGet s.rooms (effectiveRoom roomField) <;>
    cases hasAck <;>
      simp [step, handleSendMessage, mkMessage, isDelivery, hget]

/-- C10: a send_message from an unregistered connection is not rejected:
its message carries sender Anonymous, still lands at the back of the
Message Log, and is still delivered (nonempty receive_message fan-out). -/
theorem C10_anonymous_send (s : ServerState) (cid : ConnId) (now : Nat)
    (body : String) (roomField : Option String) (hasAck : Bool)
    (h : alistGet s.users cid = none) :
    (mkMessage s cid now body roomField).sender = "Anonymous" ∧
    (stepState s (Event.sendMessage cid now body roomField hasAck)).messages.getLast?
      = some (mkMessage s cid now body roomField) ∧
    ((step s (Event.sendMessage cid now body roomField hasAck)).2).filter isDelivery
      ≠ [] := by
  refine ⟨?_, ?_, ?_⟩
  · simp [mkMessage, senderName, h]
  · simp only [stepState, step, handleSendMessage]
    split
    · next hgt =>
      rcases hm : s.messages with _ | ⟨x, xs⟩
      · rw [hm] at hgt
        simp at hgt
      · simp [List.getLast?_concat]
    · next hle =>
      simp [List.getLast?_concat]
  · cases hget : alistGet s.rooms (mkMessage s cid now body roomField).room <;>
      cases hasAck <;>
        simp [step, handleSendMessage, mkMessage, isDelivery, hget] at hget ⊢

/-- C10 witness: on a state with one connected, unregistered socket, a
send produces an Anonymous message at the back of the log and a delivery
emission. -/
theorem C10_anonymous_send_witness :
    (mkMessage (run [Event.connect "a"]) "a" 3 "hi" none).sender = "Anonymous" ∧
    (stepState (run [Event.connect "a"])
        (Event.sendMessage "a" 3 "hi" none false)).messages.getLast?
      = some (mkMessage (run [Event.connect "a"]) "a" 3 "hi" none) ∧
    ((step (run [Event.connect "a"])
        (Event.sendMessage "a" 3 "hi" none false)).2).filter isDelivery ≠ [] :=
  C10_anonymous_send (run [Event.connect "a"]) "a" 3 "hi" none false (by decide)

/-- Only the send_message handler grows the Message Log (message_read
rewrites one entry in place), so a log at or below capacity stays there
after any single event. -/
theorem messages_length_step_le (s : ServerState) (e : Event)
    (h : s.messages.length ≤ 100) : (stepState s e).messages.length ≤ 100 := by
  cases e with
  | connect cid => exact h
  | userJoin cid username => exact h
  | sendMessage cid now body roomField hasAck =>
    simp only [stepState, step, handleSendMessage]
    split
    · next hgt => simpa using h
    · next hle =>
      simp only [List.length_append, List.length_cons, List.length_nil] at hle ⊢
      omega
  | typing cid isTyping =>
    cases hu : alistGet s.users cid <;>
      simpa [stepState, step, handleTyping, hu] using h
  | joinRoom cid roomName =>
    by_cases hr : roomName = "" <;>
      simpa [stepState, step, handleJoinRoom, hr] using h
  | leaveRoom cid roomName =>
    by_cases hr : roomName = ""
    · simpa [stepState, step, handleLeaveRoom, hr] using h
    · cases hg : alistGet s.rooms roomName <;>
        simpa [stepState, step, handleLeaveRoom, hr, hg] using h
  | messageRead cid messageId =>
    cases hf : s.messages.find? (fun m => m.id == messageId) <;>
      simpa [stepState, step, handleMessageRead, hf, markReadFirst_length] using h
  | disconnect cid => exact h

/-- Capacity bound along every trace from the initial state. -/
theorem run_messages_length_le (es : List Event) :
    (run es).messages.length ≤ 100 := by
  suffices hgen : ∀ s : ServerState, s.messages.length ≤ 100 →
      (es.foldl stepState s).messages.length ≤ 100 by
    exact hgen initialState (by simp [initialState])
  induction es with
  | nil => intro s hs; exact hs
  | cons e rest ih =>
    intro s hs
    exact ih (stepState s e) (messages_length_step_le s e hs)

/-- C2: after every send_message the Message Log holds at most 100
messages (along any trace from start-up); below capacity an append keeps
every retained message in place, and appending to a full log of 100 drops
exactly the oldest entry, keeping the 99 younger ones unchanged and in
order before the new message. -/
theorem C2_capacity_and_fifo_eviction :
    (∀ es : List Event, (run es).messages.length ≤ 100) ∧
    (∀ (s : ServerState) (cid : ConnId) (now : Nat) (body : String)
        (roomField : Option String) (hasAck : Bool),
      s.messages.length ≤ 100 →
        (stepState s (Event.sendMessage cid now body roomField hasAck)).messages.length
            ≤ 100 ∧
        (s.messages.length < 100 →
          (stepState s (Event.sendMessage cid now body roomField hasAck)).messages
            = s.messages ++ [mkMessage s cid now body roomField]) ∧
        (s.messages.length = 100 →
          (stepState s (Event.sendMessage cid now body roomField hasAck)).messages
            = s.messages.tail ++ [mkMessage s cid now body roomField])) := by
  constructor
  · exact run_messages_length_le
  · intro s cid now body roomField hasAck hle
    refine ⟨messages_length_step_le s _ hle, ?_, ?_⟩
    · intro hlt
      simp only [stepState, step, handleSendMessage]
      split
      · next hgt =>
        simp only [List.length_append, List.length_cons, List.length_nil] at hgt
        omega
      · next hng => rfl
    · intro heq
      simp only [stepState, step, handleSendMessage]
      split
      · next hgt =>
        rcases hm : s.messages with _ | ⟨x, xs⟩
        · rw [hm] at heq
          simp at heq
        · simp
      · next hng =>
        simp only [List.length_append, List.length_cons, List.length_nil] at hng
        omega

/-- C2 witness: on a concrete log holding exactly 100 messages, a send
keeps the length at 100 and the result is the old log minus its head plus
the new message at the back. -/
theorem C2_capacity_and_fifo_eviction_witness :
    (stepState logFull (Event.sendMessage "a" 1 "hi" none false)).messages.length
        ≤ 100 ∧
    (stepState logFull (Event.sendMessage "a" 1 "hi" none false)).messages
      = logFull.messages.tail ++ [mkMessage logFull "a" 1 "hi" none] := by
  obtain ⟨h1, _, h3⟩ :=
    C2_capacity_and_fifo_eviction.2 logFull "a" 1 "hi" none false (by decide)
  exact ⟨h1, h3 (by decide)⟩

/-- C4 (amended): a join from an already-registered connection does not
crash the router, but no AlreadyRegistered error exists: the handler
unconditionally overwrites the registration — the cached joinedRooms set
is reset to just global — leaves every other room's member list untouched
in the directory, and broadcasts a user_joined event (plus the refreshed
user list) to all connections. -/
theorem C4_duplicate_join_overwrites (s : ServerState) (cid : ConnId) (u : User)
    (username : String) (h : alistGet s.users cid = some u) :
    alistGet (stepState s (Event.userJoin cid username)).users cid
      = some { username := username, rooms := ["global"] } ∧
    (∀ r, r ≠ "global" →
      alistGet (stepState s (Event.userJoin cid username)).rooms r
        = alistGet s.rooms r) ∧
    Emit.userJoined username cid ∈ (step s (Event.userJoin cid username)).2 := by
  refine ⟨?_, ?_, ?_⟩
  · simp [stepState, step, handleUserJoin, alistGet_set]
  · intro r hr
    simp [stepState, step, handleUserJoin, alistGet_update, hr]
  · simp [step, handleUserJoin]

/-- C4 witness: connection a registered as alice re-joins as bob; the
entry is overwritten, an absent room dev stays absent, and a user_joined
broadcast goes out. -/
theorem C4_duplicate_join_overwrites_witness :
    alistGet (stepState (run [Event.connect "a", Event.userJoin "a" "alice"])
        (Event.userJoin "a" "bob")).users "a"
      = some { username := "bob", rooms := ["global"] } ∧
    alistGet (stepState (run [Event.connect "a", Event.userJoin "a" "alice"])
        (Event.userJoin "a" "bob")).rooms "dev"
      = alistGet (run [Event.connect "a", Event.userJoin "a" "alice"]).rooms "dev" ∧
    Emit.userJoined "bob" "a" ∈ (step (run [Event.connect "a", Event.userJoin "a" "alice"])
        (Event.userJoin "a" "bob")).2 := by
  obtain ⟨h1, h2, h3⟩ := C4_duplicate_join_overwrites
    (run [Event.connect "a", Event.userJoin "a" "alice"]) "a"
    { username := "alice", rooms := ["global"] } "bob" (by decide)
  exact ⟨h1, h2 "dev" (by decide), h3⟩

/-- C7 (amended): a join_room with the empty name is silently ignored (no
state change and no emission of any kind, error included); any non-empty
name — whitespace-only names included — is accepted: the room exists
afterwards, the connection is in its member list, and a room notification
is emitted. -/
theorem C7_join_room_validation (s : ServerState) (cid : ConnId)
    (roomName : RoomName) (h : roomName ≠ "") :
    step s (Event.joinRoom cid "") = (s, []) ∧
    (alistGet (stepState s (Event.joinRoom cid roomName)).rooms roomName).isSome
        = true ∧
    cid ∈ (alistGet (stepState s (Event.joinRoom cid roomName)).rooms roomName).getD
        [] ∧
    (step s (Event.joinRoom cid roomName)).2 ≠ [] := by
  have hget : alistGet (stepState s (Event.joinRoom cid roomName)).rooms roomName
      = some (listAdd ((alistGet s.rooms roomName).getD []) cid) := by
    cases hg : alistGet s.rooms roomName with
    | some mem0 =>
      simp [stepState, step, handleJoinRoom, h, hg, alistGet_update]
    | none =>
      simp [stepState, step, handleJoinRoom, h, hg, alistGet_update,
        alistGet_append, alistGet]
  refine ⟨?_, ?_, ?_, ?_⟩
  · simp [step, handleJoinRoom]
  · simp [hget]
  · simp [hget, mem_listAdd]
  · simp [step, handleJoinRoom, h]

/-- C7 witness: the empty name is a no-op on the initial state, while the
single-space name creates a joined room and emits a notification. -/
theorem C7_join_room_validation_witness :
    step initialState (Event.joinRoom "a" "") = (initialState, []) ∧
    (alistGet (stepState initialState (Event.joinRoom "a" " ")).rooms " ").isSome
        = true ∧
    "a" ∈ (alistGet (stepState initialState (Event.joinRoom "a" " ")).rooms " ").getD
        [] ∧
    (step initialState (Event.joinRoom "a" " ")).2 ≠ [] :=
  C7_join_room_validation initialState "a" " " (by decide)

/-- C8: after one disconnect the connection's user entry, typing entry and
every room membership are absent; processing disconnect again returns the
state unchanged and emits only the (unchanged) user list and typing list —
in particular no user_left event. -/
theorem C8_disconnect_idempotent (s : ServerState) (cid : ConnId) :
    alistGet (stepState s (Event.disconnect cid)).users cid = none ∧
    alistGet (stepState s (Event.disconnect cid)).typingUsers cid = none ∧
    (stepState s (Event.disconnect cid)).rooms.all
        (fun p => decide (cid ∉ p.2)) = true ∧
    step (stepState s (Event.disconnect cid)) (Event.disconnect cid)
      = (stepState s (Event.disconnect cid),
         [Emit.userList ((stepState s (Event.disconnect cid)).users.map Prod.snd),
          Emit.typingList
            ((stepState s (Event.disconnect cid)).typingUsers.map Prod.snd)]) := by
  have husers : (stepState s (Event.disconnect cid)).users = alistDel s.users cid :=
    rfl
  have htyping : (stepState s (Event.disconnect cid)).typingUsers
      = alistDel s.typingUsers cid := rfl
  have hrooms : (stepState s (Event.disconnect cid)).rooms
      = s.rooms.map (fun p => (p.1, listDel p.2 cid)) := rfl
  have hconns : (stepState s (Event.disconnect cid)).conns = listDel s.conns cid :=
    rfl
  have h1 : alistGet (stepState s (Event.disconnect cid)).users cid = none := by
    rw [husers, alistGet_del]
    simp
  have h2 : alistGet (stepState s (Event.disconnect cid)).typingUsers cid = none := by
    rw [htyping, alistGet_del]
    simp
  have h3 : (stepState s (Event.disconnect cid)).rooms.all
      (fun p => decide (cid ∉ p.2)) = true := by
    rw [hrooms, List.all_eq_true]
    intro p hp
    rcases List.mem_map.mp hp with ⟨q, _, rfl⟩
    simpa using not_mem_listDel_self q.2 cid
  refine ⟨h1, h2, h3, ?_⟩
  have hu2 : alistDel (stepState s (Event.disconnect cid)).users cid
      = (stepState s (Event.disconnect cid)).users := alistDel_eq_self _ _ h1
  have ht2 : alistDel (stepState s (Event.disconnect cid)).typingUsers cid
      = (stepState s (Event.disconnect cid)).typingUsers := alistDel_eq_self _ _ h2
  have hr2 : (stepState s (Event.disconnect cid)).rooms.map
        (fun p => (p.1, listDel p.2 cid))
      = (stepState s (Event.disconnect cid)).rooms := by
    rw [hrooms, List.map_map]
    apply List.map_congr_left
    intro q _
    simp [Function.comp, listDel_idem]
  have hc2 : listDel (stepState s (Event.disconnect cid)).conns cid
      = (stepState s (Event.disconnect cid)).conns := by
    rw [hconns]
    exact listDel_idem _ _
  show handleDisconnect (stepState s (Event.disconnect cid)) cid = _
  simp only [handleDisconnect, h1, hu2, ht2, hr2, hc2]
  rfl

/-- Transfer of the global-room fact and the membership invariant between
states sharing the users and rooms stores. -/
theorem inv_of_fields (s s2 : ServerState)
    (hu : s2.users = s.users) (hr : s2.rooms = s.rooms)
    (hg : globalRoomExists s) (hinv : roomInvariant s) :
    globalRoomExists s2 ∧ roomInvariant s2 := by
  constructor
  · unfold globalRoomExists at hg ⊢
    rw [hr]
    exact hg
  · intro c r
    unfold memberOf inJoinedRooms
    rw [hu, hr]
    exact hinv c r

/-- The invariant specialised at a room present in the directory. -/
theorem roomInvariant_mem_iff (s : ServerState) (c : ConnId) (r : RoomName)
    (mem : List ConnId) (hinv : roomInvariant s)
    (hro : alistGet s.rooms r = some mem) :
    c ∈ mem ↔ ∃ u, alistGet s.users c = some u ∧ r ∈ u.rooms := by
  have h := hinv c r
  unfold memberOf inJoinedRooms at h
  rw [hro] at h
  simpa using h

/-- Under the invariant, a room absent from the directory appears in no
registered user's cached room set. -/
theorem roomInvariant_no_room (s : ServerState) (c : ConnId) (r : RoomName)
    (u : User) (hinv : roomInvariant s) (hro : alistGet s.rooms r = none)
    (hu : alistGet s.users c = some u) : r ∉ u.rooms := by
  intro hr
  rcases (hinv c r).mpr ⟨u, hu, hr⟩ with ⟨mem, hmem, _⟩
  rw [hro] at hmem
  exact Option.noConfusion hmem

/-- One well-formed event preserves the global room and the membership
invariant. -/
theorem step_preserves_roomInvariant (s : ServerState) (e : Event)
    (hg : globalRoomExists s) (hinv : roomInvariant s)
    (hwf : wellFormedEvent s e = true) :
    globalRoomExists (stepState s e) ∧ roomInvariant (stepState s e) := by
  cases e with
  | connect cid => exact inv_of_fields s _ rfl rfl hg hinv
  | sendMessage cid now body roomField hasAck =>
    exact inv_of_fields s _ rfl rfl hg hinv
  | typing cid isTyping =>
    cases hu : alistGet s.users cid with
    | none =>
      exact inv_of_fields s _ (by simp [stepState, step, handleTyping, hu])
        (by simp [stepState, step, handleTyping, hu]) hg hinv
    | some u =>
      exact inv_of_fields s _ (by simp [stepState, step, handleTyping, hu])
        (by simp [stepState, step, handleTyping, hu]) hg hinv
  | messageRead cid messageId =>
    cases hf : s.messages.find? (fun m => m.id == messageId) with
    | none =>
      exact inv_of_fields s _ (by simp [stepState, step, handleMessageRead, hf])
        (by simp [stepState, step, handleMessageRead, hf]) hg hinv
    | some msg =>
      exact inv_of_fields s _ (by simp [stepState, step, handleMessageRead, hf])
        (by simp [stepState, step, handleMessageRead, hf]) hg hinv
  | userJoin cid username =>
    have hnone : alistGet s.users cid = none := by
      simpa [wellFormedEvent, Option.isNone_iff_eq_none] using hwf
    obtain ⟨gmem, hgmem⟩ := hg
    have husers : (stepState s (Event.userJoin cid username)).users
        = alistSet s.users cid { username := username, rooms := ["global"] } := rfl
    have hrooms : (stepState s (Event.userJoin cid username)).rooms
        = alistUpdate s.rooms "global" (fun mem => listAdd mem cid) := rfl
    constructor
    · refine ⟨listAdd gmem cid, ?_⟩
      rw [hrooms, alistGet_update, if_pos rfl, hgmem]
      rfl
    · intro c r
      unfold memberOf inJoinedRooms
      rw [husers, hrooms, alistGet_update, alistGet_set]
      by_cases hc : c = cid
      · subst hc
        by_cases hr : r = "global"
        · subst hr
          rw [if_pos rfl, if_pos rfl, hgmem]
          simp [mem_listAdd]
        · rw [if_neg hr, if_pos rfl]
          constructor
          · rintro ⟨mem, hmem, hcm⟩
            rcases (hinv c r).mp ⟨mem, hmem, hcm⟩ with ⟨u2, hu2, _⟩
            rw [hnone] at hu2
            exact Option.noConfusion hu2
          · rintro ⟨u2, hu2, hr2⟩
            cases hu2
            simp at hr2
            exact absurd hr2 hr
      · rw [if_neg hc]
        by_cases hr : r = "global"
        · subst hr
          rw [if_pos rfl, hgmem]
          simp only [Option.map_some', Option.some.injEq, exists_eq_left',
            mem_listAdd, hc, or_false]
          exact roomInvariant_mem_iff s c "global" gmem hinv hgmem
        · rw [if_neg hr]
          exact hinv c r
  | joinRoom cid roomName =>
    have hreg : (alistGet s.users cid).isSome = true := by
      simpa [wellFormedEvent] using hwf
    obtain ⟨u, hu⟩ := Option.isSome_iff_exists.mp hreg
    by_cases hrn : roomName = ""
    · subst hrn
      have hid : stepState s (Event.joinRoom cid "") = s := by
        simp [stepState, step, handleJoinRoom]
      rw [hid]
      exact ⟨hg, hinv⟩
    · obtain ⟨gmem, hgmem⟩ := hg
      cases hro : alistGet s.rooms roomName with
      | some mem0 =>
        have husers : (stepState s (Event.joinRoom cid roomName)).users
            = alistSet s.users cid { u with rooms := listAdd u.rooms roomName } := by
          simp [stepState, step, handleJoinRoom, hrn, hro, hu]
        have hrooms : (stepState s (Event.joinRoom cid roomName)).rooms
            = alistUpdate s.rooms roomName (fun mem => listAdd mem cid) := by
          simp [stepState, step, handleJoinRoom, hrn, hro]
        constructor
        · by_cases hgr : ("global" : RoomName) = roomName
          · refine ⟨listAdd mem0 cid, ?_⟩
            rw [hrooms, alistGet_update, if_pos hgr, hro]
            rfl
          · refine ⟨gmem, ?_⟩
            rw [hrooms, alistGet_update, if_neg hgr]
            exact hgmem
        · intro c r
          unfold memberOf inJoinedRooms
          rw [husers, hrooms, alistGet_update, alistGet_set]
          by_cases hc : c = cid
          · subst hc
            by_cases hr : r = roomName
            · subst hr
              rw [if_pos rfl, if_pos rfl, hro]
              simp [mem_listAdd]
            · rw [if_neg hr, if_pos rfl]
              have h2 := hinv c r
              unfold memberOf inJoinedRooms at h2
              rw [hu] at h2
              simp only [Option.some.injEq, exists_eq_left'] at h2
              simpa [Option.some.injEq, exists_eq_left', mem_listAdd, hr] using h2
          · rw [if_neg hc]
            by_cases hr : r = roomName
            · subst hr
              rw [if_pos rfl, hro]
              simp only [Option.map_some', Option.some.injEq, exists_eq_left']
              have h2 := roomInvariant_mem_iff s c r mem0 hinv hro
              simpa [mem_listAdd, hc] using h2
            · rw [if_neg hr]
              exact hinv c r
      | none =>
        have hgr : ¬ ("global" : RoomName) = roomName := by
          intro he
          rw [← he] at hro
          rw [hgmem] at hro
          exact Option.noConfusion hro
        have husers : (stepState s (Event.joinRoom cid roomName)).users
            = alistSet s.users cid { u with rooms := listAdd u.rooms roomName } := by
          simp [stepState, step, handleJoinRoom, hrn, hro, hu]
        have hrooms : (stepState s (Event.joinRoom cid roomName)).rooms
            = alistUpdate (s.rooms ++ [(roomName, [])]) roomName
                (fun mem => listAdd mem cid) := by
          simp [stepState, step, handleJoinRoom, hrn, hro]
        have hlook : ∀ r, alistGet (stepState s (Event.joinRoom cid roomName)).rooms r
            = if r = roomName then some [cid] else alistGet s.rooms r := by
          intro r
          by_cases hr : r = roomName
          · subst hr
            rw [hrooms, alistGet_update, if_pos rfl, alistGet_append, hro, if_pos rfl]
            simp [alistGet, listAdd]
          · rw [hrooms, alistGet_update, if_neg hr, alistGet_append, if_neg hr]
            simp [alistGet, hr]
        constructor
        · refine ⟨gmem, ?_⟩
          rw [hlook "global", if_neg hgr]
          exact hgmem
        · intro c r
          unfold memberOf inJoinedRooms
          rw [husers, hlook r, alistGet_set]
          by_cases hr : r = roomName
          · subst hr
            rw [if_pos rfl]
            by_cases hc : c = cid
            · subst hc
              rw [if_pos rfl]
              simp [mem_listAdd]
            · rw [if_neg hc]
              simp only [Option.some.injEq, exists_eq_left', List.mem_singleton]
              constructor
              · intro h
                exact absurd h hc
              · rintro ⟨u2, hu2, hr2⟩
                exact absurd hr2 (roomInvariant_no_room s c r u2 hinv hro hu2)
          · rw [if_neg hr]
            by_cases hc : c = cid
            · subst hc
              rw [if_pos rfl]
              have h2 := hinv c r
              unfold memberOf inJoinedRooms at h2
              rw [hu] at h2
              simp only [Option.some.injEq, exists_eq_left'] at h2
              simpa [Option.some.injEq, exists_eq_left', mem_listAdd, hr] using h2
            · rw [if_neg hc]
              exact hinv c r
  | leaveRoom cid roomName =>
    by_cases hrn : roomName = ""
    · have hid : stepState s (Event.leaveRoom cid roomName) = s := by
        simp [stepState, step, handleLeaveRoom, hrn]
      rw [hid]
      exact ⟨hg, hinv⟩
    · cases hro : alistGet s.rooms roomName with
      | none =>
        have hid : stepState s (Event.leaveRoom cid roomName) = s := by
          simp [stepState, step, handleLeaveRoom, hrn, hro]
        rw [hid]
        exact ⟨hg, hinv⟩
      | some mem0 =>
        obtain ⟨gmem, hgmem⟩ := hg
        have hrooms : (stepState s (Event.leaveRoom cid roomName)).rooms
            = alistUpdate s.rooms roomName (fun mem => listDel mem cid) := by
          cases hu : alistGet s.users cid <;>
            simp [stepState, step, handleLeaveRoom, hrn, hro, hu]
        constructor
        · by_cases hgr : ("global" : RoomName) = roomName
          · refine ⟨listDel mem0 cid, ?_⟩
            rw [hrooms, alistGet_update, if_pos hgr, hro]
            rfl
          · refine ⟨gmem, ?_⟩
            rw [hrooms, alistGet_update, if_neg hgr]
            exact hgmem
        · cases hu : alistGet s.users cid with
          | none =>
            have husers : (stepState s (Event.leaveRoom cid roomName)).users
                = s.users := by
              simp [stepState, step, handleLeaveRoom, hrn, hro, hu]
            intro c r
            unfold memberOf inJoinedRooms
            rw [husers, hrooms, alistGet_update]
            by_cases hr : r = roomName
            · subst hr
              rw [if_pos rfl, hro]
              simp only [Option.map_some', Option.some.injEq, exists_eq_left']
              have h2 := roomInvariant_mem_iff s c r mem0 hinv hro
              by_cases hc : c = cid
              · subst hc
                constructor
                · intro h
                  exact absurd h (not_mem_listDel_self mem0 c)
                · rintro ⟨u2, hu2, _⟩
                  rw [hu] at hu2
                  exact Option.noConfusion hu2
              · simpa [mem_listDel, hc] using h2
            · rw [if_neg hr]
              exact hinv c r
          | some u =>
            have husers : (stepState s (Event.leaveRoom cid roomName)).users
                = alistSet s.users cid { u with rooms := listDel u.rooms roomName } := by
              simp [stepState, step, handleLeaveRoom, hrn, hro, hu]
            intro c r
            unfold memberOf inJoinedRooms
            rw [husers, hrooms, alistGet_update, alistGet_set]
            by_cases hc : c = cid
            · subst hc
              by_cases hr : r = roomName
              · subst hr
                rw [if_pos rfl, if_pos rfl, hro]
                simp only [Option.map_some', Option.some.injEq, exists_eq_left']
                constructor
                · intro h
                  exact absurd h (not_mem_listDel_self _ _)
                · intro h
                  have h2 : r ∈ listDel u.rooms r := h
                  exact absurd h2 (not_mem_listDel_self _ _)
              · rw [if_neg hr, if_pos rfl]
                have h2 := hinv c r
                unfold memberOf inJoinedRooms at h2
                rw [hu] at h2
                simp only [Option.some.injEq, exists_eq_left'] at h2
                simpa [Option.some.injEq, exists_eq_left', mem_listDel, hr] using h2
            · rw [if_neg hc]
              by_cases hr : r = roomName
              · subst hr
                rw [if_pos rfl, hro]
                simp only [Option.map_some', Option.some.injEq, exists_eq_left']
                have h2 := roomInvariant_mem_iff s c r mem0 hinv hro
                simpa [mem_listDel, hc] using h2
              · rw [if_neg hr]
                exact hinv c r
  | disconnect cid =>
    obtain ⟨gmem, hgmem⟩ := hg
    have husers : (stepState s (Event.disconnect cid)).users
        = alistDel s.users cid := rfl
    have hrooms : (stepState s (Event.disconnect cid)).rooms
        = s.rooms.map (fun p => (p.1, listDel p.2 cid)) := rfl
    constructor
    · refine ⟨listDel gmem cid, ?_⟩
      rw [hrooms, alistGet_mapDel, hgmem]
      rfl
    · intro c r
      unfold memberOf inJoinedRooms
      rw [husers, hrooms, alistGet_mapDel, alistGet_del]
      by_cases hc : c = cid
      · subst hc
        rw [if_pos rfl]
        cases hro : alistGet s.rooms r with
        | none => simp
        | some mem0 =>
          simp only [Option.map_some', Option.some.injEq, exists_eq_left']
          constructor
          · intro h
            exact absurd h (not_mem_listDel_self _ _)
          · rintro ⟨u2, hu2, _⟩
            exact Option.noConfusion hu2
      · rw [if_neg hc]
        cases hro : alistGet s.rooms r with
        | none =>
          simp only [Option.map_none']
          constructor
          · rintro ⟨mem, hmem, _⟩
            exact Option.noConfusion hmem
          · rintro ⟨u2, hu2, hr2⟩
            exact absurd hr2 (roomInvariant_no_room s c r u2 hinv hro hu2)
        | some mem0 =>
          simp only [Option.map_some', Option.some.injEq, exists_eq_left']
          have h2 := roomInvariant_mem_iff s c r mem0 hinv hro
          simpa [mem_listDel, hc] using h2

/-- The invariant holds after any well-formed trace continuation. -/
theorem wfTrace_preserves_inv (es : List Event) (s : ServerState)
    (hg : globalRoomExists s) (hinv : roomInvariant s)
    (hwf : wfTrace s es = true) :
    globalRoomExists (es.foldl stepState s) ∧
    roomInvariant (es.foldl stepState s) := by
  induction es generalizing s with
  | nil => exact ⟨hg, hinv⟩
  | cons e rest ih =>
    simp only [wfTrace, Bool.and_eq_true] at hwf
    obtain ⟨h1, h2⟩ := hwf
    obtain ⟨hg2, hinv2⟩ := step_preserves_roomInvariant s e hg hinv h1
    exact ih (stepState s e) hg2 hinv2 h2

/-- C3 (amended): the membership invariant — a connection is in a room's
member set iff the room's name is in that connection's cached joinedRooms
— holds after every event of a trace whose join events are well-formed:
user_join only from an unregistered connection and join_room only from a
registered one.  (A join_room from an unregistered connection, or a
duplicate user_join, breaks the invariant; see the counterexample.) -/
theorem C3_membership_invariant (es : List Event)
    (hwf : wfTrace initialState es = true) :
    roomInvariant (run es) := by
  have hg0 : globalRoomExists initialState := ⟨[], rfl⟩
  have hinv0 : roomInvariant initialState := by
    intro c r
    constructor
    · rintro ⟨mem, hmem, hcm⟩
      by_cases hr : r = "global"
      · subst hr
        have he : alistGet initialState.rooms "global" = some [] := rfl
        rw [he] at hmem
        cases hmem
        simp at hcm
      · have he : alistGet initialState.rooms r = none := by
          simp [initialState, alistGet, hr]
        rw [he] at hmem
        exact Option.noConfusion hmem
    · rintro ⟨u, hu, _⟩
      have he : alistGet initialState.users c = none := rfl
      rw [he] at hu
      exact Option.noConfusion hu
  exact (wfTrace_preserves_inv es initialState hg0 hinv0 hwf).2

/-- C3 witness: the well-formed trace connect, user_join, join_room ends
in a state satisfying the invariant. -/
theorem C3_membership_invariant_witness :
    wfTrace initialState [Event.connect "a", Event.userJoin "a" "alice",
        Event.joinRoom "a" "dev"] = true ∧
    roomInvariant (run [Event.connect "a", Event.userJoin "a" "alice",
        Event.joinRoom "a" "dev"]) :=
  ⟨by decide,
   C3_membership_invariant
     [Event.connect "a", Event.userJoin "a" "alice", Event.joinRoom "a" "dev"]
     (by decide)⟩

end ChatServer
